import Mathlib

/-!
Verification of the vocab-trainer core (src/main.rs) against its
natural-language specification.

Shallow embedding conventions:
* Rust `String` values are Lean `String`s; loop accumulators that `push`
  characters are embedded as `List Char` accumulators appended on the right,
  and converted with `String.mk` where the Rust code materialises a `String`.
* `usize`/`u32` values are embedded as `Nat`; `u32` overflow cannot occur on
  the paths the claims cover, and where a `u32` range matters (text parsing
  of persisted counters) the bound 2^32 appears explicitly.
* `HashMap<String, Score>` is embedded as an association list with unique
  keys; `insert` replaces the value at the first matching key or appends.
* Fallible operations return `Option`/`Except`.
-/

/-- One sense of a term, with an optional comment annotation
(`struct Phrase` in the source). -/
structure Phrase where
  body : String
  comment : String
deriving DecidableEq, Repr

/-- One vocabulary record (`struct Entry` in the source). -/
structure Entry where
  term : String
  phrases : List Phrase
deriving DecidableEq, Repr

/-- Aggregate per-term score (`struct Score`, fields `correct`, `incorrect`
of Rust type `u32`). -/
structure Score where
  correct : Nat
  incorrect : Nat
deriving DecidableEq, Repr

/-- `Score::increment_correct`. -/
def Score.increment_correct (s : Score) : Score :=
  { correct := s.correct + 1, incorrect := s.incorrect }

/-- `Score::increment_incorrect`. -/
def Score.increment_incorrect (s : Score) : Score :=
  { correct := s.correct, incorrect := s.incorrect + 1 }

/-- `type Scores = HashMap<String, Score>` embedded as an association list
with pairwise-distinct keys. -/
abbrev Scores := List (String × Score)

/-- Lookup in the embedded map (`HashMap::get`). -/
def Scores.get : Scores → String → Option Score
  | [], _ => none
  | (k, v) :: rest, key => if k = key then some v else Scores.get rest key

/-- Insertion in the embedded map (`HashMap::insert`, and the value-replacing
arm of the `HashMap` entry API): replace the value at the first matching key,
or append a new binding. -/
def Scores.insert : Scores → String → Score → Scores
  | [], key, val => [(key, val)]
  | (k, v) :: rest, key, val =>
    if k = key then (k, val) :: rest else (k, v) :: Scores.insert rest key val

/-- A quiz question (`struct Question`; the `Rc<Entry>` handle is embedded
as the entry value itself, which is immutable after parsing). -/
structure Question where
  index : Nat
  entry : Entry
deriving Repr

/-! ## Record parser (`Entry::parse`) -/

/-- The term-segment loop of `Entry::parse`: copy characters into `term`
until end of input, or until a space immediately followed by a slash, which
is consumed (both characters) and ends the segment.  Returns the accumulated
term and the unconsumed remainder. -/
def termLoop : List Char → List Char → List Char × List Char
  | [], term => (term, [])
  | c :: rest, term =>
    if c = ' ' ∧ rest.head? = some '/' then (term, rest.tail)
    else termLoop rest (term ++ [c])

/-- The phrase-segment loop of `Entry::parse`: `/` closes the current phrase
(emitting it and clearing both accumulators and the comment flag), `;` sets
the comment flag, any other character is appended to `comment` when the flag
is set and to `body` otherwise.  Content never closed by a `/` is dropped. -/
def phrasesLoop : List Char → List Char → List Char → Bool → List Phrase
  | [], _, _, _ => []
  | c :: rest, body, comment, is_comment =>
    if c = '/' then
      { body := String.mk body, comment := String.mk comment }
        :: phrasesLoop rest [] [] false
    else if c = ';' then
      phrasesLoop rest body comment true
    else if is_comment then
      phrasesLoop rest body (comment ++ [c]) is_comment
    else
      phrasesLoop rest (body ++ [c]) comment is_comment

/-- `Entry::parse`: a line whose first character is `;`, or an empty line,
produces no entry; otherwise the term segment and then the phrase segment
are parsed. -/
def Entry.parse (input : List Char) : Option Entry :=
  match input with
  | [] => none
  | c :: _ =>
    if c = ';' then none
    else
      let p := termLoop input []
      some { term := String.mk p.1, phrases := phrasesLoop p.2 [] [] false }

/-! ## Hint engine (`QuestionHint::hint`) -/

/-- `char::is_ascii_alphabetic`. -/
def isAsciiAlphabetic (c : Char) : Bool :=
  ('A' ≤ c && c ≤ 'Z') || ('a' ≤ c && c ≤ 'z')

/-- The enumerate/map pipeline inside `QuestionHint::hint`: `i` is the
character index, `symbols` the running count of non-ASCII-alphabetic
characters emitted so far.  A non-letter increments `symbols` and is emitted
unchanged; a letter is emitted unchanged when `i - symbols < mistakes`
(Rust `usize` subtraction, embedded as Nat subtraction) and as `'_'`
otherwise. -/
def hintMaskAux : List Char → Nat → Nat → Nat → List Char
  | [], _, _, _ => []
  | c :: rest, i, symbols, mistakes =>
    if isAsciiAlphabetic c then
      (if i - symbols < mistakes then c else '_')
        :: hintMaskAux rest (i + 1) symbols mistakes
    else
      c :: hintMaskAux rest (i + 1) (symbols + 1) mistakes

/-- The fully masked form of a term (before the skip of already-typed
characters). -/
def hintMask (term : List Char) (mistakes : Nat) : List Char :=
  hintMaskAux term 0 0 mistakes

/-- The hinter helper (`struct QuestionHint`). -/
structure QuestionHint where
  entry : Entry
  mistakes : Nat

/-- `QuestionHint::hint`: mask the term, then skip as many characters as the
live input buffer already holds (`line.chars().count()`); Rust's `skip` on
the mapped iterator still runs the mapping closure for skipped elements, so
it is exactly a `drop` on the fully masked string.  Always returns `some`. -/
def QuestionHint.hint (h : QuestionHint) (line : String) : Option String :=
  some (String.mk ((hintMask h.entry.term.data h.mistakes).drop line.data.length))

/-- The `(index, symbols)` pairs the hint loop passes through, together with
the character processed at each step: the loop body at `(c, i, symbols)`
computes `i - symbols` when `c` is a letter. -/
def hintTrace : List Char → Nat → Nat → List (Char × Nat × Nat)
  | [], _, _ => []
  | c :: rest, i, symbols =>
    (c, i, symbols)
      :: hintTrace rest (i + 1) (if isAsciiAlphabetic c then symbols else symbols + 1)

/-- Number of non-ASCII-alphabetic characters in a list. -/
def countNonAlpha (l : List Char) : Nat :=
  l.countP (fun c => ! isAsciiAlphabetic c)

/-- Modelled from the spec: the per-character masking rule stated
positionally — a non-letter is shown; a letter is shown exactly when its
0-based position among letters only (character index minus the count of
preceding non-letters) is below the mistake count, and is `'_'` otherwise.
Refinement target the code's stateful loop is compared against. -/
def hintCharSpec (c : Char) (i symbols mistakes : Nat) : Char :=
  if isAsciiAlphabetic c then
    (if i - symbols < mistakes then c else '_')
  else c

/-! ## Quiz state machine (`GameState`) -/

/-- `struct GameState`. -/
structure GameState where
  entries : List Entry
  scores : Scores
  progress : Nat
  mistakes : Nat

/-- `GameState::new`. -/
def GameState.new (entries : List Entry) (scores : Scores) : GameState :=
  { entries := entries, scores := scores, progress := 0, mistakes := 0 }

/-- `GameState::next_question`: while `progress` is below the entry count,
emit the question at the cursor, advance the cursor and reset `mistakes`;
otherwise signal termination. -/
def GameState.next_question (s : GameState) : Option Question × GameState :=
  if h : s.progress < s.entries.length then
    (some { index := s.progress, entry := s.entries.get ⟨s.progress, h⟩ },
     { s with progress := s.progress + 1, mistakes := 0 })
  else
    (none, s)

/-- `GameState::answer_question`: exact string comparison of the submission
against the term.  On match, update the score at the submitted key (equal to
the term) through the `HashMap` entry API; on mismatch, increment `mistakes`.
Returns the correctness flag and the updated state. -/
def GameState.answer_question (s : GameState) (q : Question) (answer : String) :
    Bool × GameState :=
  if q.entry.term = answer then
    let newScore :=
      match Scores.get s.scores answer with
      | some sc =>
        if s.mistakes = 0 then sc.increment_correct else sc.increment_incorrect
      | none =>
        if s.mistakes = 0 then { correct := 1, incorrect := 0 }
        else { correct := 0, incorrect := 1 }
    (true, { s with scores := Scores.insert s.scores answer newScore })
  else
    (false, { s with mistakes := s.mistakes + 1 })

/-- Iterated calls to `next_question`, keeping the state threaded through. -/
def iterateNext (s : GameState) : Nat → GameState
  | 0 => s
  | n + 1 => (iterateNext s n).next_question.2

/-! ## Session loop and main (`GameUI::wait_for_input`, `run_loop`, `main`) -/

/-- The outcome `rustyline`'s `readline` hands back for one prompt
(`Result<String, ReadlineError>`, with the two gracefully handled error
variants distinguished and every other error abstracted by a numeric id). -/
inductive ReadlineResult where
  | ok (input : String)
  | interrupted
  | eof
  | err (e : Nat)
deriving DecidableEq, Repr

/-- `enum UIResponse`. -/
inductive UIResponse where
  | ret (input : String)
  | quit
deriving DecidableEq, Repr

/-- `GameUI::wait_for_input` (minus the terminal side effects): an input
starting with `:` is a command — it quits when the text after the colon is a
prefix of `"quit"`, and is otherwise passed through verbatim as an answer;
interrupt and end-of-input become a quit; any other readline error is
propagated as an error. -/
def waitForInput : ReadlineResult → Except Nat UIResponse
  | .ok input =>
    if [':'].isPrefixOf input.data then
      if (input.data.drop 1).isPrefixOf "quit".data then Except.ok UIResponse.quit
      else Except.ok (UIResponse.ret input)
    else Except.ok (UIResponse.ret input)
  | .interrupted => Except.ok UIResponse.quit
  | .eof => Except.ok UIResponse.quit
  | .err e => Except.error e

/-- `run_loop`, inner loop: with question `q` active, consume one scripted
readline outcome per iteration; a readline error aborts the whole loop with
that error, a quit breaks out of both loops, a correct answer fetches the
next question, an incorrect answer repeats the inner loop.  An exhausted
script behaves like end-of-input (graceful quit). -/
def runRounds (q : Question) (s : GameState) :
    List ReadlineResult → Except Nat GameState
  | [] => Except.ok s
  | ev :: rest =>
    match waitForInput ev with
    | Except.error e => Except.error e
    | Except.ok UIResponse.quit => Except.ok s
    | Except.ok (UIResponse.ret input) =>
      match s.answer_question q input with
      | (true, s1) =>
        match s1.next_question with
        | (none, s2) => Except.ok s2
        | (some q2, s2) => runRounds q2 s2 rest
      | (false, s1) => runRounds q s1 rest

/-- `run_loop`: fetch the first question and enter the round loop; with no
questions at all the loop completes immediately.  Returns the final state on
normal completion or quit, and the readline error on the fatal path. -/
def runLoop (s : GameState) (script : List ReadlineResult) :
    Except Nat GameState :=
  match s.next_question with
  | (none, s1) => Except.ok s1
  | (some q, s1) => runRounds q s1 script

/-- What `main` does after `run_loop` returns. -/
inductive ProcessOutcome where
  | saved (scores : Scores)
  | panicked
deriving DecidableEq, Repr

/-- The tail of `main`: `run_loop(&mut ui, &mut state).expect("run loop")`
panics on an `Err`, so `save_scores(&score_path, state.scores)` runs only
when `run_loop` returned `Ok`. -/
def mainAfterLoop (r : Except Nat GameState) : ProcessOutcome :=
  match r with
  | Except.ok s => ProcessOutcome.saved s.scores
  | Except.error _ => ProcessOutcome.panicked

/-! ## Score persistence (`load_scores`, `save_scores`)

The file system is embedded as the file's character contents: `none` for an
absent file, `some contents` otherwise.  `create_dir_all` on the parent only
affects directories, not the contents, and is not modelled further. -/

/-- Decimal rendering of a `u32` (Rust's `Display` for unsigned integers),
with explicit fuel to keep the recursion structural; `natToDec` supplies
sufficient fuel. -/
def natToDecAux : Nat → Nat → List Char
  | 0, _ => []
  | fuel + 1, n =>
    if n < 10 then [Char.ofNat (48 + n)]
    else natToDecAux fuel (n / 10) ++ [Char.ofNat (48 + n % 10)]

/-- Decimal rendering of a `u32` value. -/
def natToDec (n : Nat) : List Char := natToDecAux (n + 1) n

/-- `char::is_ascii_digit`, as used by `str::parse::<u32>`. -/
def isAsciiDigit (c : Char) : Bool := '0' ≤ c && c ≤ '9'

/-- `str::parse::<u32>`: an optional leading `+`, then at least one ASCII
digit and nothing else, with the value below 2^32; anything else fails. -/
def parseU32 (s : List Char) : Option Nat :=
  let t := if s.head? = some '+' then s.tail else s
  if t = [] then none
  else if t.all isAsciiDigit then
    let v := t.foldl (fun acc c => acc * 10 + (c.toNat - 48)) 0
    if v < 4294967296 then some v else none
  else none

/-- One line written by `save_scores`:
`writeln!(writer, "{}\t{}\t{}", term, score.correct, score.incorrect)`. -/
def scoreLine (term : String) (score : Score) : List Char :=
  term.data ++ '\t' :: natToDec score.correct ++ '\t' :: natToDec score.incorrect ++ ['\n']

/-- The byte stream `save_scores` writes: one line per binding, in map
order. -/
def saveScoresContent (scores : Scores) : List Char :=
  (scores.map fun p => scoreLine p.1 p.2).flatten

/-- `save_scores`, as a function on the file contents: the file is opened
with write and create but WITHOUT truncate, so the serialization is written
over the front of any prior contents and the prior tail beyond its length
survives.  An absent file is created empty first. -/
def save_scores (old : Option (List Char)) (scores : Scores) : List Char :=
  let written := saveScoresContent scores
  written ++ (old.getD []).drop written.length

/-- Drop one trailing carriage return, as `BufRead::lines` does after
removing the newline. -/
def stripCR (l : List Char) : List Char :=
  if l.getLast? = some '\r' then l.dropLast else l

/-- `BufRead::lines`: split at every newline (removing it and a preceding
carriage return); a final segment at end of input is yielded as-is when
non-empty, and a trailing newline produces no extra empty line. -/
def rlinesAux : List Char → List Char → List (List Char)
  | [], acc => if acc = [] then [] else [acc]
  | c :: rest, acc =>
    if c = '\n' then stripCR acc :: rlinesAux rest []
    else rlinesAux rest (acc ++ [c])

/-- The lines of a file's contents. -/
def rlines (content : List Char) : List (List Char) := rlinesAux content []

/-- `str::split('\t')`: the pieces between tabs (never empty as a list). -/
def splitTabAux : List Char → List Char → List (List Char)
  | [], acc => [acc]
  | c :: rest, acc =>
    if c = '\t' then acc :: splitTabAux rest []
    else splitTabAux rest (acc ++ [c])

/-- Split a line at tabs. -/
def splitTab (l : List Char) : List (List Char) := splitTabAux l []

/-- `load_scores`, as a function of the contents of an existing file: each
line's first tab-separated field is the term, the next two parse as the
counters with unparsable or missing fields defaulting to 0; every line
inserts a binding. -/
def load_scores (content : List Char) : Scores :=
  (rlines content).foldl
    (fun scores line =>
      match splitTab line with
      | [] => scores
      | term :: parts =>
        let score : Score :=
          { correct := ((parts[0]?).bind parseU32).getD 0,
            incorrect := ((parts[1]?).bind parseU32).getD 0 }
        Scores.insert scores (String.mk term) score)
    []

/-- The part of a saved score line before its terminating newline. -/
def lineBody (term : String) (sc : Score) : List Char :=
  (term.data ++ '\t' :: natToDec sc.correct) ++ '\t' :: natToDec sc.incorrect

/-- A concrete entry used to instantiate witnesses. -/
def demoEntry : Entry := { term := "dog", phrases := [{ body := "an animal", comment := "" }] }

/-- A concrete question over `demoEntry`. -/
def demoQuestion : Question := { index := 0, entry := demoEntry }

/-- A concrete fresh state over `demoEntry`. -/
def demoState : GameState := GameState.new [demoEntry] []

/-! ## Map lemmas -/

lemma Scores.get_insert_self (l : Scores) (k : String) (v : Score) :
    Scores.get (Scores.insert l k v) k = some v := by
  induction l with
  | nil => simp [Scores.insert, Scores.get]
  | cons p rest ih =>
    obtain ⟨k', v'⟩ := p
    by_cases h : k' = k
    · simp [Scores.insert, Scores.get, h]
    · simp [Scores.insert, Scores.get, h, ih]

lemma Scores.get_insert_ne (l : Scores) (k k' : String) (v : Score) (h : k' ≠ k) :
    Scores.get (Scores.insert l k v) k' = Scores.get l k' := by
  have hne : k ≠ k' := Ne.symm h
  induction l with
  | nil => simp [Scores.insert, Scores.get, hne]
  | cons p rest ih =>
    obtain ⟨k0, v0⟩ := p
    by_cases h0 : k0 = k
    · subst h0
      simp [Scores.insert, Scores.get, hne]
    · simp [Scores.insert, Scores.get, h0, ih]

example :
    Entry.parse ("cat / a small domesticated feline /".data)
      = some { term := "cat",
               phrases := [{ body := " a small domesticated feline ", comment := "" }] } := by
  decide

example : Entry.parse (" /a/".data) = some { term := "", phrases := [⟨"a", ""⟩] } := by
  decide

example : Entry.parse ("t /a;b;c/".data) = some { term := "t", phrases := [⟨"a", "bc"⟩] } := by
  decide

example : Entry.parse [] = none := by decide

example :
    (QuestionHint.hint { entry := { term := "a-bc", phrases := [] }, mistakes := 2 } "a")
      = some "-b_" := by
  decide

example : natToDec 407 = ['4', '0', '7'] := by decide

example : parseU32 ['4', '0', '7'] = some 407 := by decide

example : parseU32 ['b'] = none := by decide

example :
    load_scores (save_scores none [("dog", ⟨2, 1⟩), ("cat", ⟨0, 3⟩)])
      = [("dog", ⟨2, 1⟩), ("cat", ⟨0, 3⟩)] := by
  decide

example :
    load_scores (save_scores none [("a\tb", ⟨1, 2⟩)]) = [("a", ⟨0, 1⟩)] := by
  decide

example :
    save_scores (some ("a\t9\t9\nb\t9\t9\n".data)) [("a", ⟨1, 0⟩)]
      = "a\t1\t0\nb\t9\t9\n".data := by
  decide

example :
    waitForInput (ReadlineResult.ok ":q") = Except.ok UIResponse.quit := rfl

example :
    waitForInput (ReadlineResult.ok ":x") = Except.ok (UIResponse.ret ":x") := rfl

example :
    runLoop (GameState.new [{ term := "dog", phrases := [] }] []) [ReadlineResult.err 7]
      = Except.error 7 := rfl

example :
    (runLoop (GameState.new [{ term := "dog", phrases := [] }] [])
        [ReadlineResult.ok "wrong", ReadlineResult.ok "dog"]).toOption.map
      (fun s => s.scores) = some [("dog", ⟨0, 1⟩)] := by
  decide

/-! ## Claim theorems -/

/-- Claim C1: `answer_question` returns correct exactly when the submitted
string equals the question's entry term under exact, case-sensitive string
equality; on a correct answer the score mapping at that term is updated per
Policy A — with the per-question mistakes counter at 0 the term's correct
counter grows by 1, and otherwise its incorrect counter grows by 1, an
absent term counting as zero correct and zero incorrect — while every other
key keeps its value. -/
theorem answer_question_correct_scoring (s : GameState) (q : Question) (ans : String) :
    ((s.answer_question q ans).1 = true ↔ ans = q.entry.term)
    ∧ (ans = q.entry.term →
        (Scores.get (s.answer_question q ans).2.scores q.entry.term =
          some (let old := (Scores.get s.scores q.entry.term).getD { correct := 0, incorrect := 0 }
                if s.mistakes = 0 then
                  { correct := old.correct + 1, incorrect := old.incorrect }
                else
                  { correct := old.correct, incorrect := old.incorrect + 1 }))
        ∧ ∀ k, k ≠ q.entry.term →
            Scores.get (s.answer_question q ans).2.scores k = Scores.get s.scores k) := by
  by_cases h : q.entry.term = ans
  · subst h
    refine ⟨by simp [GameState.answer_question], fun _ => ⟨?_, fun k hk => ?_⟩⟩
    · unfold GameState.answer_question
      simp only [if_pos rfl]
      cases hg : Scores.get s.scores q.entry.term with
      | none =>
        by_cases hm : s.mistakes = 0 <;>
          simp [hg, hm, Scores.get_insert_self, Score.increment_correct,
            Score.increment_incorrect]
      | some sc =>
        by_cases hm : s.mistakes = 0 <;>
          simp [hg, hm, Scores.get_insert_self, Score.increment_correct,
            Score.increment_incorrect]
    · unfold GameState.answer_question
      simp only [if_pos rfl]
      exact Scores.get_insert_ne _ _ _ _ hk
  · refine ⟨?_, fun hx => absurd hx.symm h⟩
    simp [GameState.answer_question, h]
    exact fun e => h e.symm

/-- Witness for C1 at a concrete correct answer. -/
theorem answer_question_correct_scoring_witness :
    ("dog" : String) = demoQuestion.entry.term
    ∧ Scores.get (demoState.answer_question demoQuestion "dog").2.scores
        demoQuestion.entry.term = some { correct := 1, incorrect := 0 } := by
  refine ⟨rfl, ?_⟩
  exact ((answer_question_correct_scoring demoState demoQuestion "dog").2 rfl).1

/-- Claim C4: a submission different from the term makes `answer_question`
return incorrect, increment the per-question mistakes counter by exactly 1,
and leave the score mapping, the entry list and the progress cursor
untouched. -/
theorem answer_question_incorrect_frame (s : GameState) (q : Question) (ans : String)
    (h : ans ≠ q.entry.term) :
    (s.answer_question q ans).1 = false
    ∧ (s.answer_question q ans).2.scores = s.scores
    ∧ (s.answer_question q ans).2.entries = s.entries
    ∧ (s.answer_question q ans).2.progress = s.progress
    ∧ (s.answer_question q ans).2.mistakes = s.mistakes + 1 := by
  have h' : ¬(q.entry.term = ans) := fun e => h e.symm
  simp [GameState.answer_question, h']

/-- Witness for C4 at a concrete wrong answer. -/
theorem answer_question_incorrect_frame_witness :
    ("cat" : String) ≠ demoQuestion.entry.term
    ∧ (demoState.answer_question demoQuestion "cat").1 = false
    ∧ (demoState.answer_question demoQuestion "cat").2.mistakes = demoState.mistakes + 1 := by
  have h : ("cat" : String) ≠ demoQuestion.entry.term := by decide
  have hth := answer_question_incorrect_frame demoState demoQuestion "cat" h
  exact ⟨h, hth.1, hth.2.2.2.2⟩

/-! ## State machine lemmas -/

lemma next_question_entries (s : GameState) : s.next_question.2.entries = s.entries := by
  unfold GameState.next_question
  split <;> rfl

lemma next_question_progress (s : GameState) :
    s.next_question.2.progress =
      if s.progress < s.entries.length then s.progress + 1 else s.progress := by
  unfold GameState.next_question
  split <;> simp_all

lemma next_question_mistakes (s : GameState) (h : s.progress < s.entries.length) :
    s.next_question.2.mistakes = 0 := by
  unfold GameState.next_question
  simp [h]

lemma next_question_fst (s : GameState) :
    s.next_question.1 = (s.entries[s.progress]?).map
      (fun e => { index := s.progress, entry := e }) := by
  unfold GameState.next_question
  by_cases h : s.progress < s.entries.length
  · simp [h, List.getElem?_eq_getElem h]
  · simp [h, List.getElem?_eq_none (le_of_not_lt h)]

lemma iterateNext_new (es : List Entry) (sc : Scores) (k : Nat) :
    (iterateNext (GameState.new es sc) k).entries = es
    ∧ (iterateNext (GameState.new es sc) k).progress = min k es.length := by
  induction k with
  | zero => exact ⟨rfl, by simp [iterateNext, GameState.new]⟩
  | succ k ih =>
    obtain ⟨he, hp⟩ := ih
    refine ⟨by rw [iterateNext, next_question_entries, he], ?_⟩
    rw [iterateNext, next_question_progress, he, hp]
    rcases Nat.lt_or_ge (min k es.length) es.length with h | h
    · rw [if_pos h]
      omega
    · rw [if_neg (not_lt_of_ge h)]
      omega

/-- Claim C3: from a fresh state over `n` entries, the `i`-th call of
`next_question` (0-based, `i < n`) yields the question with index `i` over
the `i`-th entry, leaves `progress` at `i + 1` and resets `mistakes` to 0;
the call after the `n`-th returns the terminal signal with `progress` still
`n`; and `progress` never exceeds `n`. -/
theorem next_question_sequence (es : List Entry) (sc : Scores) :
    (∀ i, i < es.length →
        (iterateNext (GameState.new es sc) i).next_question.1
            = (es[i]?).map (fun e => { index := i, entry := e })
        ∧ (iterateNext (GameState.new es sc) (i + 1)).progress = i + 1
        ∧ (iterateNext (GameState.new es sc) (i + 1)).mistakes = 0)
    ∧ (iterateNext (GameState.new es sc) es.length).next_question.1 = none
    ∧ (iterateNext (GameState.new es sc) es.length).progress = es.length
    ∧ (∀ k, (iterateNext (GameState.new es sc) k).progress ≤ es.length) := by
  have key := iterateNext_new es sc
  refine ⟨fun i hi => ⟨?_, ?_, ?_⟩, ?_, ?_, fun k => ?_⟩
  · rw [next_question_fst, (key i).1, (key i).2, Nat.min_eq_left (le_of_lt hi)]
  · rw [(key (i + 1)).2]
    omega
  · rw [iterateNext]
    refine next_question_mistakes _ ?_
    rw [(key i).1, (key i).2]
    omega
  · rw [next_question_fst, (key es.length).1, (key es.length).2, Nat.min_self,
      List.getElem?_eq_none (le_refl es.length), Option.map_none']
  · rw [(key es.length).2, Nat.min_self]
  · rw [(key k).2]
    omega

/-- Witness for C3 over a one-entry list. -/
theorem next_question_sequence_witness :
    0 < ([demoEntry] : List Entry).length
    ∧ (iterateNext (GameState.new [demoEntry] []) 0).next_question.1
        = some { index := 0, entry := demoEntry }
    ∧ (iterateNext (GameState.new [demoEntry] []) 1).next_question.1 = none := by
  refine ⟨by decide, ?_, ?_⟩
  · exact (((next_question_sequence [demoEntry] []).1 0 (by decide)).1).trans rfl
  · exact (next_question_sequence [demoEntry] []).2.1

/-! ## Parser lemmas -/

lemma termLoop_fst_length (l : List Char) :
    ∀ t : List Char, t.length ≤ (termLoop l t).1.length := by
  induction l with
  | nil => intro t; simp [termLoop]
  | cons c rest ih =>
    intro t
    by_cases h : c = ' ' ∧ rest.head? = some '/'
    · simp [termLoop, h]
    · rw [termLoop, if_neg h]
      calc t.length ≤ (t ++ [c]).length := by simp
        _ ≤ ((termLoop rest (t ++ [c])).1).length := ih (t ++ [c])

/-- Claim C5 (amended): parsing yields no entry exactly for the empty line
and for a line whose first character is a semicolon; a produced entry's term
is empty exactly when the line begins with a space immediately followed by a
slash — for every other produced entry the term is non-empty. -/
theorem parse_entry_characterization (input : List Char) :
    (Entry.parse input = none ↔ (input = [] ∨ input.head? = some ';'))
    ∧ (∀ e, Entry.parse input = some e →
        (e.term.data = [] ↔ (input.head? = some ' ' ∧ input.tail.head? = some '/'))) := by
  cases input with
  | nil => exact ⟨by simp [Entry.parse], by simp [Entry.parse]⟩
  | cons c rest =>
    by_cases hc : c = ';'
    · subst hc
      refine ⟨by simp [Entry.parse], fun e he => ?_⟩
      simp [Entry.parse] at he
    · constructor
      · simp [Entry.parse, hc]
      · intro e he
        rw [Entry.parse] at he
        rw [if_neg hc] at he
        have hterm : e.term.data = (termLoop (c :: rest) []).1 := by
          rw [← Option.some_inj] at he
          simp at he
          rw [← he]
        by_cases hbr : c = ' ' ∧ rest.head? = some '/'
        · rw [termLoop, if_pos hbr] at hterm
          simp [hterm, hbr]
        · rw [termLoop, if_neg hbr] at hterm
          simp only [List.nil_append] at hterm
          have hlen : 1 ≤ (termLoop rest [c]).1.length := by
            have h1 := termLoop_fst_length rest [c]
            simpa using h1
          constructor
          · intro hempty
            rw [hterm] at hempty
            rw [hempty] at hlen
            simp at hlen
          · intro hx
            exact absurd (by simpa using hx) hbr

/-- Counterexample for C5 as stated: the line consisting of a space, a
slash, the letter a and a slash is neither empty nor starts with a
semicolon, yet it parses to an entry whose term is the empty string. -/
theorem parse_empty_term_counterexample :
    Entry.parse (" /a/".data)
      = some { term := "", phrases := [{ body := "a", comment := "" }] } := by
  decide

/-- Witness for C5 on concrete lines. -/
theorem parse_entry_characterization_witness :
    Entry.parse ("dog /an animal/".data)
        = some { term := "dog", phrases := [{ body := "an animal", comment := "" }] }
    ∧ ("dog" : String).data ≠ [] := by
  have hp : Entry.parse ("dog /an animal/".data)
      = some { term := "dog", phrases := [{ body := "an animal", comment := "" }] } := by
    decide
  refine ⟨hp, fun hempty => ?_⟩
  have h := (parse_entry_characterization ("dog /an animal/".data)).2 _ hp
  have h2 := h.mp hempty
  revert h2
  decide

/-- Claim C6 (amended): once comment mode is on for the current phrase, a
further semicolon is consumed with no effect — it neither toggles comment
mode off nor is appended to the comment text, and the phrase is still
closed only by a slash; concretely, the phrase segment a-semicolon-b-
semicolon-c-slash yields one phrase with body a and comment bc. -/
theorem comment_semicolon_no_toggle (rest body comment : List Char) :
    phrasesLoop (';' :: rest) body comment true = phrasesLoop rest body comment true
    ∧ Entry.parse ("t /a;b;c/".data)
        = some { term := "t", phrases := [{ body := "a", comment := "bc" }] } := by
  constructor
  · rfl
  · decide

/-- Counterexample for C6 as stated: the phrase segment a-semicolon-b-
semicolon-c-slash yields the comment bc — the second semicolon is dropped,
not kept as a literal character, so the comment is not b-semicolon-c. -/
theorem comment_semicolon_literal_counterexample :
    (Entry.parse ("t /a;b;c/".data)).map (fun e => e.phrases.map Phrase.comment)
      = some ["bc"]
    ∧ ("bc" : String) ≠ "b;c" := by
  constructor
  · decide
  · decide

/-! ## Session termination and persistence claims -/

/-- Claim C7 (amended): an input-channel error other than interrupt or
end-of-input aborts the session loop with that error, and `main` then
panics on the `expect` call before reaching `save_scores` — the score file
is written only when `run_loop` returns successfully (normal completion or
graceful quit), not on the fatal-input-error path. -/
theorem fatal_error_aborts_without_save (q : Question) (s : GameState)
    (ev : ReadlineResult) (rest : List ReadlineResult) (e : Nat)
    (h : waitForInput ev = Except.error e) :
    runRounds q s (ev :: rest) = Except.error e
    ∧ mainAfterLoop (runRounds q s (ev :: rest)) = ProcessOutcome.panicked := by
  have hr : runRounds q s (ev :: rest) = Except.error e := by
    rw [runRounds, h]
  exact ⟨hr, by rw [hr]; rfl⟩

/-- Witness for C7 at a concrete fatal readline error. -/
theorem fatal_error_aborts_without_save_witness :
    waitForInput (ReadlineResult.err 7) = Except.error 7
    ∧ runRounds demoQuestion demoState [ReadlineResult.err 7] = Except.error 7
    ∧ mainAfterLoop (runRounds demoQuestion demoState [ReadlineResult.err 7])
        = ProcessOutcome.panicked := by
  have h : waitForInput (ReadlineResult.err 7) = Except.error 7 := rfl
  have hth := fatal_error_aborts_without_save demoQuestion demoState
    (ReadlineResult.err 7) [] 7 h
  exact ⟨h, hth.1, hth.2⟩

/-- Counterexample for C7 as stated: with one entry and a script whose only
readline outcome is a non-interrupt, non-end-of-input error, `run_loop`
aborts with that error and `main` panics, so `save_scores` is never
reached — the claim that the score flush still happens on this path is
false. -/
theorem fatal_error_skips_save_counterexample :
    runLoop (GameState.new [demoEntry] []) [ReadlineResult.err 7] = Except.error 7
    ∧ mainAfterLoop (runLoop (GameState.new [demoEntry] []) [ReadlineResult.err 7])
        = ProcessOutcome.panicked := by
  exact ⟨rfl, rfl⟩

/-- Claim C8 (the claim is right, the code is wrong): `save_scores` opens
the score file with write and create but never truncates it, so prior
contents longer than the new serialization are not replaced wholesale: the
serialization is written over the front and the stale tail survives.  At
the failing input below — a prior file holding two score lines and a map
holding one — the resulting file is the one new line followed by the stale
second line, differs from the exact serialization, and a subsequent load
even resurrects the stale binding. -/
theorem save_scores_no_truncate_demo :
    save_scores (some ("a\t9\t9\nb\t9\t9\n".data)) [("a", { correct := 1, incorrect := 0 })]
      = ("a\t1\t0\nb\t9\t9\n").data
    ∧ ("a\t1\t0\nb\t9\t9\n").data
        ≠ saveScoresContent [("a", { correct := 1, incorrect := 0 })]
    ∧ load_scores (save_scores (some ("a\t9\t9\nb\t9\t9\n".data))
          [("a", { correct := 1, incorrect := 0 })])
        ≠ [("a", { correct := 1, incorrect := 0 })] := by
  refine ⟨by decide, by decide, by decide⟩

/-! ## Hint lemmas -/

lemma hintMaskAux_length (t : List Char) (m : Nat) :
    ∀ i s, (hintMaskAux t i s m).length = t.length := by
  induction t with
  | nil => intro i s; rfl
  | cons c rest ih =>
    intro i s
    by_cases h : isAsciiAlphabetic c <;> simp [hintMaskAux, h, ih]

lemma hintMaskAux_getElem? (t : List Char) (m : Nat) :
    ∀ i s j, (hintMaskAux t i s m)[j]?
      = (t[j]?).map (fun c => hintCharSpec c (i + j) (s + countNonAlpha (t.take j)) m) := by
  induction t with
  | nil => intro i s j; simp [hintMaskAux]
  | cons c rest ih =>
    intro i s j
    cases j with
    | zero =>
      by_cases h : isAsciiAlphabetic c <;>
        simp [hintMaskAux, hintCharSpec, countNonAlpha, h]
    | succ j =>
      by_cases h : isAsciiAlphabetic c
      · rw [hintMaskAux, if_pos h]
        simp only [List.getElem?_cons_succ, List.take_succ_cons]
        rw [ih (i + 1) s j]
        have hf : (fun c' => hintCharSpec c' (i + 1 + j) (s + countNonAlpha (List.take j rest)) m)
            = fun c' => hintCharSpec c' (i + (j + 1)) (s + countNonAlpha (c :: List.take j rest)) m := by
          funext c'
          have h2 : countNonAlpha (c :: List.take j rest) = countNonAlpha (List.take j rest) := by
            simp [countNonAlpha, List.countP_cons, h]
          have h1 : i + 1 + j = i + (j + 1) := by omega
          rw [h2, h1]
        rw [hf]
      · rw [hintMaskAux, if_neg h]
        simp only [List.getElem?_cons_succ, List.take_succ_cons]
        rw [ih (i + 1) (s + 1) j]
        have hf : (fun c' => hintCharSpec c' (i + 1 + j) (s + 1 + countNonAlpha (List.take j rest)) m)
            = fun c' => hintCharSpec c' (i + (j + 1)) (s + countNonAlpha (c :: List.take j rest)) m := by
          funext c'
          have h2 : countNonAlpha (c :: List.take j rest) = countNonAlpha (List.take j rest) + 1 := by
            simp [countNonAlpha, List.countP_cons, h]
          have h1 : i + 1 + j = i + (j + 1) := by omega
          have h3 : s + 1 + countNonAlpha (List.take j rest)
              = s + (countNonAlpha (List.take j rest) + 1) := by omega
          rw [h3, h2, h1]
        rw [hf]

lemma hintMask_eq_trace (t : List Char) (m : Nat) :
    ∀ i s, hintMaskAux t i s m
      = (hintTrace t i s).map (fun p => hintCharSpec p.1 p.2.1 p.2.2 m) := by
  induction t with
  | nil => intro i s; rfl
  | cons c rest ih =>
    intro i s
    by_cases h : isAsciiAlphabetic c <;>
      simp [hintMaskAux, hintTrace, hintCharSpec, h, ih]

lemma hintTrace_symbols_le (t : List Char) :
    ∀ i s, s ≤ i → ∀ p ∈ hintTrace t i s, p.2.2 ≤ p.2.1 := by
  induction t with
  | nil =>
    intro i s _ p hp
    simp [hintTrace] at hp
  | cons c rest ih =>
    intro i s h p hp
    rw [hintTrace] at hp
    rcases List.mem_cons.mp hp with rfl | hmem
    · exact h
    · refine ih (i + 1) _ ?_ p hmem
      by_cases hc : isAsciiAlphabetic c <;> simp [hc] <;> omega

/-- Claim C2: the hint equals the masked term with the first
length-of-typed-buffer characters dropped (a suffix hint); each masked
character is the term's character when it is not an ASCII letter, and for a
letter it is the character itself when its 0-based position among letters
only (index minus count of preceding non-letters) is below the mistake
count and the mask character otherwise; with zero mistakes every letter is
masked; and raising the mistake count never re-masks a character shown at a
lower count. -/
theorem hint_mask_spec (e : Entry) (m : Nat) (line : String) :
    (QuestionHint.hint { entry := e, mistakes := m } line
        = some (String.mk ((hintMask e.term.data m).drop line.data.length)))
    ∧ (∀ j, (hintMask e.term.data m)[j]?
        = (e.term.data[j]?).map (fun c =>
            if isAsciiAlphabetic c then
              (if j - countNonAlpha (e.term.data.take j) < m then c else '_')
            else c))
    ∧ (∀ (j : Nat) (c : Char), e.term.data[j]? = some c → isAsciiAlphabetic c = true →
        (hintMask e.term.data 0)[j]? = some '_')
    ∧ (∀ (m' j : Nat) (c : Char), m ≤ m' → (hintMask e.term.data m)[j]? = some c →
        e.term.data[j]? = some c → (hintMask e.term.data m')[j]? = some c) := by
  have hspec : ∀ mm j, (hintMask e.term.data mm)[j]?
      = (e.term.data[j]?).map
          (fun c => hintCharSpec c j (countNonAlpha (e.term.data.take j)) mm) := by
    intro mm j
    have h := hintMaskAux_getElem? e.term.data mm 0 0 j
    simpa using h
  refine ⟨rfl, ?_, ?_, ?_⟩
  · intro j
    rw [hspec m j]
    simp [hintCharSpec]
  · intro j c hj halpha
    rw [hspec 0 j, hj]
    simp [hintCharSpec, halpha]
  · intro m' j c hmm hmask hterm
    rw [hspec m' j, hterm]
    rw [hspec m j, hterm] at hmask
    simp only [Option.map_some'] at hmask ⊢
    by_cases halpha : isAsciiAlphabetic c
    · by_cases hlt : j - countNonAlpha (e.term.data.take j) < m
      · have hlt' : j - countNonAlpha (e.term.data.take j) < m' := lt_of_lt_of_le hlt hmm
        simp [hintCharSpec, halpha, hlt']
      · exfalso
        have hc : hintCharSpec c j (countNonAlpha (e.term.data.take j)) m = '_' := by
          simp [hintCharSpec, halpha, hlt]
        rw [hc] at hmask
        have : c = '_' := by exact Option.some_inj.mp hmask |>.symm
        subst this
        revert halpha
        decide
    · simp [hintCharSpec, halpha]

/-- Witness for C2 on a concrete term with a non-letter inside. -/
theorem hint_mask_spec_witness :
    ("a-bc".data)[0]? = some 'a'
    ∧ isAsciiAlphabetic 'a' = true
    ∧ (hintMask ("a-bc".data) 0)[0]? = some '_'
    ∧ (hintMask ("a-bc".data) 2)[1]? = some '-' := by
  have hth := hint_mask_spec { term := "a-bc", phrases := [] } 0 ""
  refine ⟨by decide, by decide, ?_, ?_⟩
  · exact hth.2.2.1 0 'a' (by decide) (by decide)
  · exact hth.2.2.2 2 1 '-' (by decide) (by decide) (by decide)

/-- Claim C10: along the hint loop's trace the running non-letter count
never exceeds the current character index, so the unsigned subtraction
index minus count is exact (no underflow), the loop is total — it emits one
character per term character for every mistake count — and the masked
output is pointwise the per-character rule applied to the traced states. -/
theorem hint_symbols_le_index (t : List Char) (c : Char) (i s : Nat)
    (h : (c, i, s) ∈ hintTrace t 0 0) :
    s ≤ i ∧ s + (i - s) = i
    ∧ (∀ m, (hintMask t m).length = t.length)
    ∧ (∀ m, hintMask t m
        = (hintTrace t 0 0).map (fun p => hintCharSpec p.1 p.2.1 p.2.2 m)) := by
  have hs : s ≤ i := by
    have hle := hintTrace_symbols_le t 0 0 (le_refl 0) (c, i, s) h
    simpa using hle
  exact ⟨hs, by omega, fun m => hintMaskAux_length t m 0 0,
    fun m => hintMask_eq_trace t m 0 0⟩

/-- Witness for C10 at a concrete trace element. -/
theorem hint_symbols_le_index_witness :
    (('b', 2, 1) ∈ hintTrace ("a-bc".data) 0 0) ∧ (1 : Nat) ≤ 2 := by
  have hmem : ('b', 2, 1) ∈ hintTrace ("a-bc".data) 0 0 := by decide
  exact ⟨hmem, (hint_symbols_le_index ("a-bc".data) 'b' 2 1 hmem).1⟩

/-! ## Decimal round-trip lemmas -/

lemma digit_toNat : ∀ n : Nat, n < 10 → (Char.ofNat (48 + n)).toNat = 48 + n := by decide

lemma digit_isDigit : ∀ n : Nat, n < 10 → isAsciiDigit (Char.ofNat (48 + n)) = true := by
  decide

lemma natToDecAux_all_digits :
    ∀ fuel n, n < fuel → ∀ c ∈ natToDecAux fuel n, isAsciiDigit c = true := by
  intro fuel
  induction fuel with
  | zero => intro n h; omega
  | succ fuel ih =>
    intro n h c hc
    rw [natToDecAux] at hc
    by_cases h10 : n < 10
    · rw [if_pos h10] at hc
      simp at hc
      subst hc
      exact digit_isDigit n h10
    · rw [if_neg h10] at hc
      rcases List.mem_append.mp hc with h1 | h2
      · have hdiv : n / 10 < fuel := by
          have hlt := Nat.div_lt_self (by omega : 0 < n) (by norm_num : 1 < 10)
          omega
        exact ih (n / 10) hdiv c h1
      · simp at h2
        subst h2
        exact digit_isDigit (n % 10) (Nat.mod_lt n (by norm_num))

lemma natToDecAux_ne_nil : ∀ fuel n, n < fuel → natToDecAux fuel n ≠ [] := by
  intro fuel
  induction fuel with
  | zero => intro n h; omega
  | succ fuel _ =>
    intro n _
    rw [natToDecAux]
    by_cases h10 : n < 10
    · rw [if_pos h10]; simp
    · rw [if_neg h10]; simp

lemma natToDecAux_foldl :
    ∀ fuel n, n < fuel →
      (natToDecAux fuel n).foldl (fun acc c => acc * 10 + (c.toNat - 48)) 0 = n := by
  intro fuel
  induction fuel with
  | zero => intro n h; omega
  | succ fuel ih =>
    intro n h
    rw [natToDecAux]
    by_cases h10 : n < 10
    · rw [if_pos h10]
      simp only [List.foldl_cons, List.foldl_nil]
      rw [digit_toNat n h10]
      omega
    · rw [if_neg h10]
      rw [List.foldl_append]
      have hdiv : n / 10 < fuel := by
        have hlt := Nat.div_lt_self (by omega : 0 < n) (by norm_num : 1 < 10)
        omega
      rw [ih (n / 10) hdiv]
      simp only [List.foldl_cons, List.foldl_nil]
      rw [digit_toNat (n % 10) (Nat.mod_lt n (by norm_num))]
      have hdm := Nat.div_add_mod n 10
      omega

lemma natToDec_all_digits (n : Nat) : ∀ c ∈ natToDec n, isAsciiDigit c = true :=
  natToDecAux_all_digits (n + 1) n (Nat.lt_succ_self n)

lemma natToDec_ne_nil (n : Nat) : natToDec n ≠ [] :=
  natToDecAux_ne_nil (n + 1) n (Nat.lt_succ_self n)

lemma parseU32_natToDec (n : Nat) (h : n < 4294967296) : parseU32 (natToDec n) = some n := by
  have hne := natToDec_ne_nil n
  have hdig := natToDec_all_digits n
  have hplus : ¬((natToDec n).head? = some '+') := by
    cases hd : natToDec n with
    | nil => exact absurd hd hne
    | cons c rest =>
      have hc : isAsciiDigit c = true := hdig c (by rw [hd]; exact List.mem_cons_self c rest)
      simp only [List.head?_cons]
      intro he
      rw [Option.some_inj.mp he] at hc
      exact absurd hc (by decide)
  have hall : (natToDec n).all isAsciiDigit = true := List.all_eq_true.mpr hdig
  rw [parseU32]
  simp only [hplus, if_false]
  have hfold : List.foldl (fun acc c => acc * 10 + (c.toNat - 48)) 0 (natToDec n) = n :=
    natToDecAux_foldl (n + 1) n (Nat.lt_succ_self n)
  rw [if_neg hne, if_pos hall, hfold, if_pos h]

/-! ## Line structure lemmas -/

lemma scoreLine_eq (t : String) (sc : Score) :
    scoreLine t sc = lineBody t sc ++ ['\n'] := by
  simp [scoreLine, lineBody]

lemma lineBody_no_newline (t : String) (sc : Score) (h : '\n' ∉ t.data) :
    '\n' ∉ lineBody t sc := by
  intro hm
  rw [lineBody] at hm
  rcases List.mem_append.mp hm with h1 | h2
  · rcases List.mem_append.mp h1 with h3 | h4
    · exact h h3
    · rcases List.mem_cons.mp h4 with he | h5
      · exact absurd he (by decide)
      · exact absurd (natToDec_all_digits sc.correct '\n' h5) (by decide)
  · rcases List.mem_cons.mp h2 with he | h5
    · exact absurd he (by decide)
    · exact absurd (natToDec_all_digits sc.incorrect '\n' h5) (by decide)

lemma stripCR_append_digits (l : List Char) (x : Char) (d : List Char) (hne : d ≠ [])
    (hd : ∀ c ∈ d, isAsciiDigit c = true) :
    stripCR (l ++ x :: d) = l ++ x :: d := by
  have hlast := List.getLast_mem hne
  have hdig := hd _ hlast
  have hsplit : d.dropLast ++ [d.getLast hne] = d := List.dropLast_append_getLast hne
  have heq : l ++ x :: d = (l ++ x :: d.dropLast) ++ [d.getLast hne] := by
    have hshape : (l ++ x :: d.dropLast) ++ [d.getLast hne]
        = l ++ x :: (d.dropLast ++ [d.getLast hne]) := by simp
    rw [hshape, hsplit]
  have hgl : (l ++ x :: d).getLast? = some (d.getLast hne) := by
    conv_lhs => rw [heq]
    exact List.getLast?_concat _
  have hner : ¬((l ++ x :: d).getLast? = some '\r') := by
    rw [hgl]
    intro he
    rw [Option.some_inj.mp he] at hdig
    exact absurd hdig (by decide)
  rw [stripCR, if_neg hner]

lemma lineBody_stripCR (t : String) (sc : Score) :
    stripCR (lineBody t sc) = lineBody t sc :=
  stripCR_append_digits (t.data ++ '\t' :: natToDec sc.correct) '\t'
    (natToDec sc.incorrect) (natToDec_ne_nil sc.incorrect)
    (natToDec_all_digits sc.incorrect)

lemma rlinesAux_line (body rest : List Char) :
    ∀ acc, '\n' ∉ body →
      rlinesAux (body ++ '\n' :: rest) acc = stripCR (acc ++ body) :: rlinesAux rest [] := by
  induction body with
  | nil =>
    intro acc _
    simp [rlinesAux]
  | cons c body ih =>
    intro acc h
    have hc : ¬(c = '\n') := fun e => h (by rw [e]; exact List.mem_cons_self '\n' body)
    rw [List.cons_append, rlinesAux, if_neg hc,
      ih (acc ++ [c]) (fun hm => h (List.mem_cons_of_mem c hm))]
    simp

lemma rlines_flatten (bodies : List (List Char))
    (h : ∀ b ∈ bodies, '\n' ∉ b ∧ stripCR b = b) :
    rlines ((bodies.map (fun b => b ++ ['\n'])).flatten) = bodies := by
  induction bodies with
  | nil => rfl
  | cons b bs ih =>
    rw [List.map_cons, List.flatten_cons]
    have hb := h b (List.mem_cons_self b bs)
    have hshape : (b ++ ['\n']) ++ (bs.map (fun b => b ++ ['\n'])).flatten
        = b ++ '\n' :: (bs.map (fun b => b ++ ['\n'])).flatten := by simp
    rw [rlines, hshape, rlinesAux_line _ _ [] hb.1]
    rw [List.nil_append, hb.2]
    rw [show rlinesAux ((bs.map (fun b => b ++ ['\n'])).flatten) [] =
          rlines ((bs.map (fun b => b ++ ['\n'])).flatten) from rfl]
    rw [ih (fun b hbm => h b (List.mem_cons_of_mem _ hbm))]

lemma splitTabAux_no_tab (l : List Char) :
    ∀ acc, '\t' ∉ l → splitTabAux l acc = [acc ++ l] := by
  induction l with
  | nil => intro acc _; simp [splitTabAux]
  | cons c rest ih =>
    intro acc h
    have hc : ¬(c = '\t') := fun e => h (by rw [e]; exact List.mem_cons_self '\t' rest)
    rw [splitTabAux, if_neg hc, ih (acc ++ [c]) (fun hm => h (List.mem_cons_of_mem c hm))]
    simp

lemma splitTabAux_append (pre rest : List Char) :
    ∀ acc, '\t' ∉ pre →
      splitTabAux (pre ++ '\t' :: rest) acc = (acc ++ pre) :: splitTabAux rest [] := by
  induction pre with
  | nil =>
    intro acc _
    simp [splitTabAux]
  | cons c pre ih =>
    intro acc h
    have hc : ¬(c = '\t') := fun e => h (by rw [e]; exact List.mem_cons_self '\t' pre)
    rw [List.cons_append, splitTabAux, if_neg hc,
      ih (acc ++ [c]) (fun hm => h (List.mem_cons_of_mem c hm))]
    simp

lemma splitTab_lineBody (t : String) (sc : Score) (h : '\t' ∉ t.data) :
    splitTab (lineBody t sc) = [t.data, natToDec sc.correct, natToDec sc.incorrect] := by
  have hd1 : '\t' ∉ natToDec sc.correct := by
    intro hm
    exact absurd (natToDec_all_digits sc.correct '\t' hm) (by decide)
  have hd2 : '\t' ∉ natToDec sc.incorrect := by
    intro hm
    exact absurd (natToDec_all_digits sc.incorrect '\t' hm) (by decide)
  rw [splitTab, lineBody, List.append_assoc, List.cons_append]
  rw [splitTabAux_append t.data _ [] h, List.nil_append]
  rw [splitTabAux_append (natToDec sc.correct) _ [] hd1, List.nil_append]
  rw [splitTabAux_no_tab (natToDec sc.incorrect) [] hd2, List.nil_append]

/-! ## Map fold lemmas -/

lemma Scores.get_append (l1 l2 : Scores) (k : String) :
    Scores.get (l1 ++ l2) k = (Scores.get l1 k).or (Scores.get l2 k) := by
  induction l1 with
  | nil => simp [Scores.get]
  | cons p rest ih =>
    obtain ⟨k0, v0⟩ := p
    by_cases h : k0 = k <;> simp [Scores.get, h, ih]

lemma Scores.insert_of_get_none (l : Scores) (k : String) (v : Score)
    (h : Scores.get l k = none) : Scores.insert l k v = l ++ [(k, v)] := by
  induction l with
  | nil => rfl
  | cons p rest ih =>
    obtain ⟨k0, v0⟩ := p
    rw [Scores.get] at h
    by_cases h0 : k0 = k
    · rw [if_pos h0] at h
      exact absurd h (by simp)
    · rw [if_neg h0] at h
      simp [Scores.insert, h0, ih h]

lemma foldl_insert_append (items : List (String × Score)) :
    ∀ acc : Scores, (∀ p ∈ items, Scores.get acc p.1 = none) →
      (items.map Prod.fst).Nodup →
      items.foldl (fun sc p => Scores.insert sc p.1 p.2) acc = acc ++ items := by
  induction items with
  | nil =>
    intro acc _ _
    simp
  | cons p rest ih =>
    obtain ⟨k, v⟩ := p
    intro acc hnone hnodup
    rw [List.foldl_cons]
    have hk : Scores.get acc k = none := hnone (k, v) (List.mem_cons_self _ _)
    rw [Scores.insert_of_get_none acc k v hk]
    rw [List.map_cons] at hnodup
    obtain ⟨hknotin, hnodup'⟩ := List.nodup_cons.mp hnodup
    have hnone' : ∀ q ∈ rest, Scores.get (acc ++ [(k, v)]) q.1 = none := by
      intro q hq
      rw [Scores.get_append, hnone q (List.mem_cons_of_mem _ hq)]
      have hne : ¬(k = q.1) := by
        intro e
        apply hknotin
        rw [e]
        exact List.mem_map.mpr ⟨q, hq, rfl⟩
      simp [Scores.get, hne]
    rw [ih (acc ++ [(k, v)]) hnone' hnodup']
    simp

/-- Claim C9 (amended): for every score mapping whose terms contain neither
a tab nor a newline character (with counter values in u32 range, as in the
code), saving with `save_scores` to a fresh path and then loading the file
back with `load_scores` yields an equal mapping.  `save_scores` always
writes the three-field Policy A layout, so no Policy B round trip arises
from it; on the load side a two-field Policy B style line is accepted with
the missing third field defaulting to 0, as the final conjunct shows. -/
theorem save_load_round_trip (scores : Scores)
    (hkeys : (scores.map Prod.fst).Nodup)
    (hchar : ∀ p ∈ scores, '\t' ∉ p.1.data ∧ '\n' ∉ p.1.data)
    (hbound : ∀ p ∈ scores, p.2.correct < 4294967296 ∧ p.2.incorrect < 4294967296) :
    load_scores (save_scores none scores) = scores
    ∧ load_scores ("w\t3".data) = [("w", { correct := 3, incorrect := 0 })] := by
  refine ⟨?_, by decide⟩
  have hsave : save_scores none scores = saveScoresContent scores := by
    simp [save_scores]
  have hcontent : saveScoresContent scores
      = ((scores.map (fun p => lineBody p.1 p.2)).map (fun b => b ++ ['\n'])).flatten := by
    rw [saveScoresContent, List.map_map]
    have hfun : (fun p : String × Score => scoreLine p.1 p.2)
        = (fun b => b ++ ['\n']) ∘ (fun p : String × Score => lineBody p.1 p.2) := by
      funext p
      exact scoreLine_eq p.1 p.2
    rw [hfun]
  rw [hsave, load_scores, hcontent]
  have hbodies : ∀ b ∈ scores.map (fun p => lineBody p.1 p.2), '\n' ∉ b ∧ stripCR b = b := by
    intro b hb
    obtain ⟨p, hp, hpb⟩ := List.mem_map.mp hb
    rw [← hpb]
    exact ⟨lineBody_no_newline p.1 p.2 (hchar p hp).2, lineBody_stripCR p.1 p.2⟩
  rw [rlines_flatten _ hbodies]
  rw [List.foldl_map]
  have hstep : ∀ (sc : Scores), ∀ p ∈ scores,
      (fun scores line =>
        match splitTab line with
        | [] => scores
        | term :: parts =>
          Scores.insert scores (String.mk term)
            { correct := ((parts[0]?).bind parseU32).getD 0,
              incorrect := ((parts[1]?).bind parseU32).getD 0 })
        sc (lineBody p.1 p.2)
      = Scores.insert sc p.1 p.2 := by
    intro sc p hp
    simp only
    rw [splitTab_lineBody p.1 p.2 (hchar p hp).1]
    simp only [List.getElem?_cons_zero, List.getElem?_cons_succ, Option.some_bind]
    rw [parseU32_natToDec p.2.correct (hbound p hp).1,
      parseU32_natToDec p.2.incorrect (hbound p hp).2]
    rfl
  rw [List.foldl_ext _ _ [] hstep]
  rw [foldl_insert_append scores [] (fun p _ => rfl) hkeys]
  rfl

/-- Witness for C9 on a concrete two-entry mapping. -/
theorem save_load_round_trip_witness :
    (([("dog", { correct := 2, incorrect := 1 }),
       ("cat!", { correct := 0, incorrect := 3 })] : Scores).map Prod.fst).Nodup
    ∧ load_scores (save_scores none
        [("dog", { correct := 2, incorrect := 1 }),
         ("cat!", { correct := 0, incorrect := 3 })])
      = [("dog", { correct := 2, incorrect := 1 }),
         ("cat!", { correct := 0, incorrect := 3 })] := by
  refine ⟨by decide, ?_⟩
  exact (save_load_round_trip
    [("dog", { correct := 2, incorrect := 1 }), ("cat!", { correct := 0, incorrect := 3 })]
    (by decide) (by decide) (by decide)).1

/-- Counterexample for C9 as stated: a term containing a tab character does
not survive the round trip — the tab collides with the field separator, so
the loaded mapping differs from the saved one. -/
theorem round_trip_tab_counterexample :
    load_scores (save_scores none [("a\tb", { correct := 1, incorrect := 2 })])
      = [("a", { correct := 0, incorrect := 1 })]
    ∧ ([("a", { correct := 0, incorrect := 1 })] : Scores)
      ≠ [("a\tb", { correct := 1, incorrect := 2 })] := by
  exact ⟨by decide, by decide⟩
